import Mathlib

/-!
Verification development for the `pkgmgr` package-manager orchestrator
(`main.go`).  The Go program is shallowly embedded: pure fragments become
Lean functions, filesystem and process effects become explicit oracles
(`pathExists : String → Bool` for `os.Stat`, `ExecRes`-valued oracles for
child-process runs), and `panic` becomes `Except.error`.
-/

namespace Pkgmgr

/-! ## String helpers mirroring the Go standard library -/

/-- Go `unicode.IsSpace`: the Unicode White_Space property, used by
`strings.TrimSpace`. -/
def goIsSpace (c : Char) : Bool :=
  let n := c.toNat
  n = 0x20 || (0x9 ≤ n && n ≤ 0xD) || n = 0x85 || n = 0xA0 ||
  n = 0x1680 || (0x2000 ≤ n && n ≤ 0x200A) || n = 0x2028 || n = 0x2029 ||
  n = 0x202F || n = 0x205F || n = 0x3000

/-- Go `strings.TrimSpace` on a character list: drop White_Space characters
from both ends. -/
def trimChars (l : List Char) : List Char :=
  ((l.dropWhile goIsSpace).reverse.dropWhile goIsSpace).reverse

/-- Go `strings.TrimSpace`. -/
def trimSpace (s : String) : String :=
  String.mk (trimChars s.data)

/-- Whether the character sequence `k` occurs as a contiguous substring of
`l` (used to state "token contains a placeholder literal"). -/
def containsSeq (k : List Char) : List Char → Bool
  | [] => k.isEmpty
  | c :: rest => k.isPrefixOf (c :: rest) || containsSeq k rest

/-- Go `cmp.Or` at type `string`: the first argument when it is non-zero
(non-empty), otherwise the second. -/
def cmpOr (a b : String) : String :=
  if a ≠ "" then a else b

/-! ## Placeholder substitution (`dictReplacer`)

The repository uses a `dictReplacer` value whose implementation is not part
of `main.go`; only its call site (`dict.Map(slices.Values(args))` with the
dictionary `{"${VER}": ver, "${OS}": GOOS, "${ARCH}": GOARCH}`) is.  It is
modelled from the spec below. -/

/-- First dictionary entry whose (non-empty) key is a prefix of `l`. -/
def findKey (dict : List (String × String)) (l : List Char) : Option (String × String) :=
  dict.find? (fun kv => !kv.1.data.isEmpty && kv.1.data.isPrefixOf l)

/-- Modelled from the spec: the per-token replacement performed by the
repository's `dictReplacer` (its implementation is not in `main.go`).
Per the spec, "every occurrence of each placeholder literal within each
token is replaced by its value", by literal (non-regex) string
substitution: a single left-to-right scan that, at each position, emits
the value of the first matching dictionary key and skips past the key,
or else copies one character.  The scan consumes at least one character
per step; `fuel` bounds the number of steps so that the recursion is
structural (it is exact whenever `fuel` is at least the input length). -/
def replaceCharsFuel (dict : List (String × String)) : Nat → List Char → List Char
  | _, [] => []
  | 0, l => l
  | fuel + 1, c :: rest =>
    match findKey dict (c :: rest) with
    | some kv => kv.2.data ++ replaceCharsFuel dict fuel (rest.drop (kv.1.data.length - 1))
    | none => c :: replaceCharsFuel dict fuel rest

/-- Modelled from the spec: `dictReplacer`'s scan of one token. -/
def replaceChars (dict : List (String × String)) (l : List Char) : List Char :=
  replaceCharsFuel dict l.length l

/-- Modelled from the spec: one token after placeholder substitution. -/
def substToken (dict : List (String × String)) (s : String) : String :=
  String.mk (replaceChars dict s.data)

/-- Modelled from the spec: `dictReplacer.Map` applied to an argument
vector, as used at the `Exec` call site. -/
def dictMap (dict : List (String × String)) (args : List String) : List String :=
  args.map (substToken dict)

/-- The dictionary built inside `commandExecutor.Exec`. -/
def execDict (ver goos goarch : String) : List (String × String) :=
  [("${VER}", ver), ("${OS}", goos), ("${ARCH}", goarch)]

/-! ## Data model -/

/-- The four operation kinds (`command` constants in `main.go`).  The
source represents them as strings and panics on an unknown kind in
`Select`; the closed inductive makes that branch unreachable. -/
inductive command where
  | ver
  | checklatest
  | install
  | update
deriving DecidableEq, Repr

/-- The string value of a `command` constant (used as script base name). -/
def commandStr : command → String
  | .ver => "ver"
  | .checklatest => "checklatest"
  | .install => "install"
  | .update => "update"

/-- `commandSet` from `main.go`.  Go slices distinguish `nil` (absent
JSON field) from an empty slice; the `Option` keeps that distinction,
which `reflect.ValueOf(...).IsZero()` observes. -/
structure commandSet where
  Ver : Option (List String) := none
  CheckLatest : Option (List String) := none
  Install : Option (List String) := none
  Update : Option (List String) := none
deriving DecidableEq, Repr

/-- `commandSet.Select`: the template slice for an operation kind (a `nil`
slice and an empty slice both behave as the empty list downstream). -/
def commandSet.Select (c : commandSet) : command → List String
  | .ver => c.Ver.getD []
  | .checklatest => c.CheckLatest.getD []
  | .install => c.Install.getD []
  | .update => c.Update.getD []

/-- `reflect.ValueOf(set).IsZero()`: every field is a `nil` slice. -/
def isZeroSet (c : commandSet) : Bool :=
  c.Ver.isNone && c.CheckLatest.isNone && c.Install.isNone && c.Update.isNone

/-- `namedCommandSet` from `main.go`. -/
structure namedCommandSet where
  Name : String
  Set : commandSet := {}
deriving DecidableEq, Repr

/-! ## All-targets enumeration: sort comparator and de-duplication
(lines 325-343) -/

/-- The `slices.SortFunc` comparator of lines 325-341: compare names
first; on equal names a zero `commandSet` (bare-directory entry) sorts
after a non-zero one (`.json`-file entry). -/
def cmpSets (i j : namedCommandSet) : Int :=
  if i.Name < j.Name then -1
  else if j.Name < i.Name then 1
  else if isZeroSet i.Set then 1
  else if isZeroSet j.Set then -1
  else 0

/-- `slices.SortFunc`'s postcondition: each element compares at least as
large as its predecessor. -/
def sortedByCmpSets (l : List namedCommandSet) : Prop :=
  l.Chain' (fun a b => 0 ≤ cmpSets b a)

/-- Tail of Go's `slices.CompactFunc`: drop elements equal (under `eq`)
to the last kept element, otherwise keep and update the last kept. -/
def compactAux (eq : namedCommandSet → namedCommandSet → Bool)
    (last : namedCommandSet) : List namedCommandSet → List namedCommandSet
  | [] => []
  | b :: l => if eq last b then compactAux eq last l else b :: compactAux eq b l

/-- Go `slices.CompactFunc`: keep the first element of every run of
consecutive `eq`-equal elements. -/
def compactFunc (eq : namedCommandSet → namedCommandSet → Bool) :
    List namedCommandSet → List namedCommandSet
  | [] => []
  | a :: l => a :: compactAux eq a l

/-- The equality used at line 343: same target name. -/
def eqName (i j : namedCommandSet) : Bool :=
  i.Name = j.Name

/-- Line 343: `slices.CompactFunc(sets, func(i, j) { return i.Name == j.Name })`. -/
def compactByName (l : List namedCommandSet) : List namedCommandSet :=
  compactFunc eqName l

/-! ## Command resolution (`commandExecutor.Exec`, lines 104-124) -/

/-- `filepath.Join` on the three (clean, separator-free) components the
program builds paths from. -/
def joinPath (dir name file : String) : String :=
  dir ++ "/" ++ name ++ "/" ++ file

/-- The fixed extension probe order in `Exec`. -/
def suffixCandidates : List String := ["", ".sh", ".exe", ".bat", ".ps1"]

/-- The discovery loop of `Exec`: walk the suffix list, returning the
first candidate script path that exists as a one-element argument vector,
or the empty vector when none exists. -/
def probeScript (pathExists : String → Bool) (dir name kindStr : String) :
    List String → List String
  | [] => []
  | suf :: rest =>
    let p := joinPath dir name (kindStr ++ suf)
    if pathExists p then [p] else probeScript pathExists dir name kindStr rest

/-- The resolution phase of `commandExecutor.Exec`: template substitution
when the selected template is non-empty, otherwise filesystem discovery
over `suffixCandidates`, with a "command not found" error when no
candidate exists. -/
def resolveCommand (dir name : String) (set : commandSet) (kind : command)
    (ver goos goarch : String) (pathExists : String → Bool) :
    Except String (List String) :=
  let args := set.Select kind
  if args.length > 0 then
    .ok (dictMap (execDict ver goos goarch) args)
  else
    let args := probeScript pathExists dir name (commandStr kind) suffixCandidates
    if args.length = 0 then .error "command not found" else .ok args

/-- The child-process environment built by `Exec` (lines 141-144):
`os.Environ()` plus `OS` and `ARCH`, plus `VER` only when the version
string is non-empty. -/
def execEnv (environ : List String) (goos goarch ver : String) : List String :=
  let env := environ ++ ["OS=" ++ goos, "ARCH=" ++ goarch]
  if ver ≠ "" then env ++ ["VER=" ++ ver] else env

/-! ## Per-target process runs and the command loops of `main`

A child-process run is abstracted by an oracle
`ex : String → command → String → ExecRes` giving, for a target name, an
operation kind and the version argument, the captured standard output
(`buf.String()`) and whether `cmd.Run()` returned `nil`.  A `panic` in
`main` becomes `Except.error`, carrying the events that happened before
the abort so that statements about preserved partial progress can be
made. -/

/-- Outcome of one `commandExecutor.Exec` call: captured stdout text and
success of the run. -/
structure ExecRes where
  out : String
  ok : Bool
deriving DecidableEq, Repr

/-- Observable events of a run of `main`'s command loops. -/
inductive Ev where
  /-- An `Exec` invocation for a target, operation kind and version
  argument. -/
  | exec (tgt : String) (kind : command) (ver : String)
  /-- The "Skipping …: seems already installed" line of the install loop. -/
  | skipInstalled (tgt : String)
  /-- The ": no update" line of the update planning loop. -/
  | noUpdate (tgt : String)
  /-- A "warn: failed: …" line printed under the force flag. -/
  | warn (tgt : String)
deriving DecidableEq, Repr

/-- Go map read `pinnedVersions[name]`: the mapped value, or the zero
value `""` when the key is absent. -/
def pinGet (pins : List (String × String)) (name : String) : String :=
  (pins.lookup name).getD ""

/-- The effective target version of the update planning loop (line 441):
`cmp.Or(pinnedVersions[name], latestVersions[name])`. -/
def effectiveVersion (pins : List (String × String)) (latest : String → String)
    (name : String) : String :=
  cmpOr (pinGet pins name) (latest name)

/-- The events that actually happened in a run or a loop iteration,
whether it completed or panicked. -/
def traceOf (r : Except (List Ev × String) (List Ev)) : List Ev :=
  match r with
  | .ok evs => evs
  | .error (evs, _) => evs

/-- The version argument the install loop passes to the `install`
operation (line 377): `cmp.Or(pinnedVersions[name], ver)` where `ver` is
the trimmed `checklatest` output, blanked to `""` when `checklatest`
failed. -/
def installVersionArg (pins : List (String × String))
    (ex : String → command → String → ExecRes) (t : String) : String :=
  cmpOr (pinGet pins t)
    (if (ex t command.checklatest "").ok then trimSpace (ex t command.checklatest "").out
     else "")

/-- The install loop body (lines 362-387) for one target: skip when `ver`
succeeds; otherwise fetch the latest version (empty on failure) and run
`install` with `cmp.Or(pin, fetched)`; on install failure panic unless
the force flag is set, in which case warn and continue.  Returns the
events of this target (also on the error path). -/
def installStep (force : Bool) (pins : List (String × String))
    (ex : String → command → String → ExecRes) (t : String) :
    Except (List Ev × String) (List Ev) :=
  let rv := ex t command.ver ""
  if rv.ok then
    .ok [Ev.exec t command.ver "", Ev.skipInstalled t]
  else
    let iv := installVersionArg pins ex t
    let ri := ex t command.install iv
    let evs := [Ev.exec t command.ver "", Ev.exec t command.checklatest "",
      Ev.exec t command.install iv]
    if ri.ok then .ok evs
    else if force then .ok (evs ++ [Ev.warn t])
    else .error (evs, "install " ++ t)

/-- The events of one install loop iteration, whether it panicked or
not. -/
def installStepTrace (force : Bool) (pins : List (String × String))
    (ex : String → command → String → ExecRes) (t : String) : List Ev :=
  traceOf (installStep force pins ex t)

/-- The install loop (lines 361-387) over the enumerated target names. -/
def installRun (force : Bool) (pins : List (String × String))
    (ex : String → command → String → ExecRes) :
    List String → List Ev → Except (List Ev × String) (List Ev)
  | [], acc => .ok acc
  | t :: rest, acc =>
    match installStep force pins ex t with
    | .ok evs => installRun force pins ex rest (acc ++ evs)
    | .error (evs, msg) => .error (acc ++ evs, msg)

/-- The standalone `ver` loop (lines 388-399) and `checklatest` loop
(lines 401-412), which differ only in the operation kind: run the kind
for each target with the empty version argument; on failure panic unless
forced (then warn); in either surviving case record the trimmed captured
output in the version map. -/
def verQueryRun (kind : command) (force : Bool)
    (ex : String → command → String → ExecRes) :
    List String → (String → Option String) → List Ev →
    Except (List Ev × String) (List Ev × (String → Option String))
  | [], m, acc => .ok (acc, m)
  | t :: rest, m, acc =>
    let r := ex t kind ""
    let acc := acc ++ [Ev.exec t kind ""]
    if r.ok then
      verQueryRun kind force ex rest
        (fun x => if x = t then some (trimSpace r.out) else m x) acc
    else if force then
      verQueryRun kind force ex rest
        (fun x => if x = t then some (trimSpace r.out) else m x)
        (acc ++ [Ev.warn t])
    else .error (acc, commandStr kind ++ " " ++ t)

/-- The version-gathering phase of the update branch (lines 415-432):
for each target run `ver` then `checklatest`; any failure panics; record
trimmed outputs in the current/latest version maps (Go maps read with
default `""`). -/
def gatherLoop (ex : String → command → String → ExecRes) :
    List String → (String → String) → (String → String) → List Ev →
    Except (List Ev × String) (List Ev × (String → String) × (String → String))
  | [], cur, lat, acc => .ok (acc, cur, lat)
  | t :: rest, cur, lat, acc =>
    let rv := ex t command.ver ""
    let acc := acc ++ [Ev.exec t command.ver ""]
    if rv.ok then
      let cur := fun x => if x = t then trimSpace rv.out else cur x
      let rc := ex t command.checklatest ""
      let acc := acc ++ [Ev.exec t command.checklatest ""]
      if rc.ok then
        gatherLoop ex rest cur (fun x => if x = t then trimSpace rc.out else lat x) acc
      else .error (acc, "checklatest " ++ t)
    else .error (acc, "ver " ++ t)

/-- The update planning loop (lines 439-452): compute each target's
effective version; log ": no update" and skip when the current version
equals it, otherwise queue `(target, effective version)`. -/
def planLoop (pins : List (String × String)) (cur lat : String → String) :
    List String → List Ev × List (String × String)
  | [] => ([], [])
  | t :: rest =>
    if cur t = effectiveVersion pins lat t then
      (Ev.noUpdate t :: (planLoop pins cur lat rest).1, (planLoop pins cur lat rest).2)
    else
      ((planLoop pins cur lat rest).1,
        (t, effectiveVersion pins lat t) :: (planLoop pins cur lat rest).2)

/-- The update execution loop (lines 454-461): run `update` with the
queued effective version for each queued target; any failure panics. -/
def execUpdatesLoop (ex : String → command → String → ExecRes) :
    List (String × String) → List Ev → Except (List Ev × String) (List Ev)
  | [], acc => .ok acc
  | (t, v) :: rest, acc =>
    let acc := acc ++ [Ev.exec t command.update v]
    if (ex t command.update v).ok then execUpdatesLoop ex rest acc
    else .error (acc, "updating " ++ t)

/-- The whole `update` branch (lines 414-461): gather versions, plan,
then execute queued updates.  The force flag is in scope in `main` but
never read on this branch. -/
def updateRun (force : Bool) (pins : List (String × String))
    (ex : String → command → String → ExecRes) (sets : List String) :
    Except (List Ev × String) (List Ev) :=
  match gatherLoop ex sets (fun _ => "") (fun _ => "") [] with
  | .error e => .error e
  | .ok (acc, cur, lat) =>
    execUpdatesLoop ex (planLoop pins cur lat sets).2
      (acc ++ (planLoop pins cur lat sets).1)

/-! ## Pin loading and the top-level dispatch -/

/-- Result of opening and decoding the optional `.pin.json` file
(lines 233-245): the file may be absent, opening/decoding may fail, or a
mapping is obtained. -/
inductive pinLoad where
  | notFound
  | failure (msg : String)
  | found (pins : List (String × String))
deriving DecidableEq, Repr

/-- One pinned entry violating the trimmed-form invariant of lines
247-251. -/
def badPin (p : String × String) : Bool :=
  !(p.1 = trimSpace p.1 && p.2 = trimSpace p.2)

/-- The `switch command(cmd)` dispatch at line 360 over the four command
loops. -/
def runDispatch (pins : List (String × String)) (sets : List String)
    (cmd : command) (force : Bool)
    (ex : String → command → String → ExecRes) :
    Except (List Ev × String) (List Ev) :=
  match cmd with
  | .install => installRun force pins ex sets []
  | .ver => (verQueryRun command.ver force ex sets (fun _ => none) []).map (·.1)
  | .checklatest =>
    (verQueryRun command.checklatest force ex sets (fun _ => none) []).map (·.1)
  | .update => updateRun force pins ex sets

/-- The run from pin loading (lines 233-251) through command dispatch
(lines 360-462), with target enumeration abstracted to the list of
enumerated names: a missing pin file yields the empty mapping, any other
pin load failure is fatal, an untrimmed pinned key or value is fatal, and
all of these abort before any target is processed (empty event trace). -/
def runCli (pinsIn : pinLoad) (sets : List String) (cmd : command)
    (force : Bool) (ex : String → command → String → ExecRes) :
    Except (List Ev × String) (List Ev) :=
  match pinsIn with
  | .failure m => .error ([], m)
  | .notFound => runDispatch [] sets cmd force ex
  | .found pins =>
    match pins.find? badPin with
    | some p => .error ([], "pinned version " ++ p.1 ++
        " has space prefix and/or suffix in name or version")
    | none => runDispatch pins sets cmd force ex

/-! ## Helper lemmas -/

theorem findKey_eq_some {dict : List (String × String)} {l : List Char}
    {kv : String × String} (h : findKey dict l = some kv) :
    kv ∈ dict ∧ kv.1.data ≠ [] ∧ kv.1.data.isPrefixOf l = true := by
  have hmem := List.mem_of_find?_eq_some h
  have hp := List.find?_some h
  simp only [Bool.and_eq_true, Bool.not_eq_true'] at hp
  refine ⟨hmem, ?_, hp.2⟩
  intro hnil
  simp [hnil] at hp

theorem replaceCharsFuel_of_no_key (dict : List (String × String)) :
    ∀ (fuel : Nat) (l : List Char),
      (∀ kv ∈ dict, containsSeq kv.1.data l = false) →
      replaceCharsFuel dict fuel l = l := by
  intro fuel
  induction fuel with
  | zero => intro l _; cases l <;> rfl
  | succ n ih =>
    intro l h
    cases l with
    | nil => rfl
    | cons c rest =>
      rw [replaceCharsFuel]
      cases hf : findKey dict (c :: rest) with
      | some kv =>
        exfalso
        obtain ⟨hmem, _, hpre⟩ := findKey_eq_some hf
        have := h kv hmem
        rw [containsSeq, hpre] at this
        simp at this
      | none =>
        have hrest : ∀ kv ∈ dict, containsSeq kv.1.data rest = false := by
          intro kv hkv
          have := h kv hkv
          rw [containsSeq] at this
          exact (Bool.or_eq_false_iff.mp this).2
        rw [ih rest hrest]

theorem replaceChars_of_no_key (dict : List (String × String)) (l : List Char)
    (h : ∀ kv ∈ dict, containsSeq kv.1.data l = false) :
    replaceChars dict l = l :=
  replaceCharsFuel_of_no_key dict l.length l h

theorem substToken_of_no_key (dict : List (String × String)) (s : String)
    (h : ∀ kv ∈ dict, containsSeq kv.1.data s.data = false) :
    substToken dict s = s := by
  unfold substToken
  rw [replaceChars_of_no_key dict s.data h]

theorem probeScript_eq_find (pathExists : String → Bool) (dir name kindStr : String) :
    ∀ sufs : List String,
      probeScript pathExists dir name kindStr sufs =
        match (sufs.map (fun suf => joinPath dir name (kindStr ++ suf))).find? pathExists with
        | some p => [p]
        | none => [] := by
  intro sufs
  induction sufs with
  | nil => rfl
  | cons suf rest ih =>
    rw [probeScript, List.map_cons, List.find?]
    by_cases hp : pathExists (joinPath dir name (kindStr ++ suf))
    · simp [hp]
    · simp only [Bool.not_eq_true] at hp
      simp [hp, ih]

/-! ## Claims -/

/-- Claim C1: for every command set and operation kind, `Exec` resolves a
non-empty template by substituting the `${VER}`/`${OS}`/`${ARCH}`
placeholders with the requested version and host OS/architecture in every
token, performing no filesystem discovery (the result does not depend on
the filesystem oracle); with an empty template it probes
`<configDir>/<targetName>/<kind><ext>` for extensions in the fixed order
`["", ".sh", ".exe", ".bat", ".ps1"]`, resolving to the first existing
path as a one-element argument vector, and fails with "command not found"
when none of the five candidates exists. -/
theorem C1_exec_resolution (dir name : String) (set : commandSet) (kind : command)
    (ver goos goarch : String) (pathExists : String → Bool) :
    (set.Select kind ≠ [] →
      resolveCommand dir name set kind ver goos goarch pathExists =
        .ok (dictMap (execDict ver goos goarch) (set.Select kind)) ∧
      ∀ pathExists2 : String → Bool,
        resolveCommand dir name set kind ver goos goarch pathExists =
          resolveCommand dir name set kind ver goos goarch pathExists2) ∧
    (set.Select kind = [] →
      resolveCommand dir name set kind ver goos goarch pathExists =
        match (suffixCandidates.map
            (fun suf => joinPath dir name (commandStr kind ++ suf))).find? pathExists with
        | some p => .ok [p]
        | none => .error "command not found") := by
  constructor
  · intro hne
    have hlen : (set.Select kind).length > 0 := List.length_pos.mpr hne
    constructor
    · rw [resolveCommand]
      simp [hlen]
    · intro pe2
      rw [resolveCommand, resolveCommand]
      simp [hlen]
  · intro hemp
    rw [resolveCommand]
    simp only [hemp, List.length_nil, gt_iff_lt, lt_self_iff_false, if_false]
    rw [probeScript_eq_find]
    cases hf : (suffixCandidates.map
        (fun suf => joinPath dir name (commandStr kind ++ suf))).find? pathExists with
    | some p => simp
    | none => simp

/-- Witness for C1 at concrete inputs: a non-empty install template
`["echo", "${VER}"]` resolves by substitution to `["echo", "1.0"]`
without consulting the filesystem; an empty template resolves to the
first existing candidate (here the `.bat` one), or fails with "command
not found" when no candidate exists. -/
theorem C1_exec_resolution_witness :
    resolveCommand "cfg" "foo" { Install := some ["echo", "${VER}"] } command.install
        "1.0" "linux" "amd64" (fun _ => false) = .ok ["echo", "1.0"] ∧
    resolveCommand "cfg" "foo" {} command.install "1.0" "linux" "amd64"
        (fun p => p = "cfg/foo/install.bat") = .ok ["cfg/foo/install.bat"] ∧
    resolveCommand "cfg" "foo" {} command.install "1.0" "linux" "amd64"
        (fun _ => false) = .error "command not found" := by
  refine ⟨?_, ?_, ?_⟩
  · have h := ((C1_exec_resolution "cfg" "foo" { Install := some ["echo", "${VER}"] }
      command.install "1.0" "linux" "amd64" (fun _ => false)).1 (by decide)).1
    rw [h]
    rfl
  · have h := (C1_exec_resolution "cfg" "foo" {} command.install "1.0" "linux" "amd64"
      (fun p => p = "cfg/foo/install.bat")).2 (by decide)
    rw [h]
    rfl
  · have h := (C1_exec_resolution "cfg" "foo" {} command.install "1.0" "linux" "amd64"
      (fun _ => false)).2 (by decide)
    rw [h]
    rfl

/-- Counterexample to claim C2 as stated: the pinned-versions mapping
`[("x", "")]` contains an entry for target `"x"`, yet the effective
target version is the latest-checked value `"1.0"`, not the pinned value
`""`: `cmp.Or` treats a present-but-empty pin entry as absent, so a
present entry does not always win. -/
theorem C2_effective_version_counterexample :
    ([("x", "")] : List (String × String)).lookup "x" = some "" ∧
    effectiveVersion [("x", "")] (fun _ => "1.0") "x" = "1.0" ∧
    effectiveVersion [("x", "")] (fun _ => "1.0") "x" ≠ "" := by
  refine ⟨rfl, rfl, by decide⟩

/-- Claim C2 (amended): during update planning the effective target
version is the pinned version whenever the pinned-versions mapping
contains a NON-EMPTY entry for the target name; an entry whose value is
the empty string behaves as if absent, and then (as with no entry at all)
the trimmed latest-checked version is used. -/
theorem C2_effective_version (pins : List (String × String))
    (latest : String → String) (name : String) :
    (∀ p : String, pins.lookup name = some p → p ≠ "" →
      effectiveVersion pins latest name = p) ∧
    (pins.lookup name = none ∨ pins.lookup name = some "" →
      effectiveVersion pins latest name = latest name) := by
  constructor
  · intro p hp hne
    rw [effectiveVersion, pinGet, hp, Option.getD_some, cmpOr, if_pos hne]
  · intro h
    rw [effectiveVersion, pinGet]
    rcases h with h | h <;> rw [h] <;> simp [cmpOr]

/-- Witness for C2 (amended): a non-empty pin `"2.0"` beats the latest
value `"9.9"`; with no entry for the name, the latest value is used. -/
theorem C2_effective_version_witness :
    effectiveVersion [("x", "2.0")] (fun _ => "9.9") "x" = "2.0" ∧
    effectiveVersion [("x", "2.0")] (fun _ => "9.9") "y" = "9.9" := by
  constructor
  · exact (C2_effective_version [("x", "2.0")] (fun _ => "9.9") "x").1 "2.0" rfl (by decide)
  · exact (C2_effective_version [("x", "2.0")] (fun _ => "9.9") "y").2 (Or.inl rfl)

/-- Counterexample to claim C9 as stated: with the dictionary
`{${VER} → "", ${OS} → "linux", ${ARCH} → "amd64"}` — whose values
contain no further-replaceable placeholder literals — substitution on the
vector `["${V${VER}ER}"]` is not idempotent: one application yields
`["${VER}"]` (removing the inner placeholder re-forms an outer one), and
a second application yields `[""]`. -/
theorem C9_substitution_idempotent_counterexample :
    (∀ kv ∈ execDict "" "linux" "amd64",
      ∀ kv2 ∈ execDict "" "linux" "amd64", containsSeq kv.1.data kv2.2.data = false) ∧
    dictMap (execDict "" "linux" "amd64") ["${V${VER}ER}"] = ["${VER}"] ∧
    dictMap (execDict "" "linux" "amd64")
        (dictMap (execDict "" "linux" "amd64") ["${V${VER}ER}"]) = [""] ∧
    dictMap (execDict "" "linux" "amd64")
        (dictMap (execDict "" "linux" "amd64") ["${V${VER}ER}"]) ≠
      dictMap (execDict "" "linux" "amd64") ["${V${VER}ER}"] := by
  refine ⟨by decide, by decide, by decide, by decide⟩

/-- Claim C9 (amended): applying the placeholder substitution twice
yields the same vector as applying it once, provided no token of the
once-substituted vector still contains an occurrence of any placeholder
literal of the dictionary (substitution can re-form a placeholder from
the text surrounding a replaced occurrence, so the proviso must hold of
the once-substituted vector, not merely of the substituted values). -/
theorem C9_substitution_idempotent (dict : List (String × String))
    (args : List String)
    (h : ∀ s ∈ dictMap dict args, ∀ kv ∈ dict, containsSeq kv.1.data s.data = false) :
    dictMap dict (dictMap dict args) = dictMap dict args := by
  unfold dictMap
  rw [List.map_map]
  apply List.map_congr_left
  intro s hs
  have hnk := h (substToken dict s) (by
    unfold dictMap
    exact List.mem_map_of_mem _ hs)
  show substToken dict (substToken dict s) = substToken dict s
  exact substToken_of_no_key dict (substToken dict s) hnk

/-- Witness for C9 (amended) at a concrete input: the vector
`["tool-${VER}-${OS}", "plain"]` with values `"1.2"`, `"linux"`,
`"amd64"` substitutes to `["tool-1.2-linux", "plain"]`, which contains no
placeholder, and a second application leaves it unchanged. -/
theorem C9_substitution_idempotent_witness :
    dictMap (execDict "1.2" "linux" "amd64")
        (dictMap (execDict "1.2" "linux" "amd64") ["tool-${VER}-${OS}", "plain"]) =
      dictMap (execDict "1.2" "linux" "amd64") ["tool-${VER}-${OS}", "plain"] :=
  C9_substitution_idempotent (execDict "1.2" "linux" "amd64")
    ["tool-${VER}-${OS}", "plain"] (by decide)

/-- Claim C7: the child-process environment is the parent's current
environment, followed by `OS=<host OS>` and `ARCH=<host architecture>`,
followed by `VER=<version>` exactly when the version string is
non-empty. -/
theorem C7_exec_env (environ : List String) (goos goarch ver : String) :
    execEnv environ goos goarch ver =
      environ ++ ["OS=" ++ goos, "ARCH=" ++ goarch] ++
        (if ver = "" then [] else ["VER=" ++ ver]) := by
  unfold execEnv
  by_cases h : ver = "" <;> simp [h]

/-- Claim C8: a loaded pinned-versions mapping with any key or value
differing from its whitespace-trimmed form fails the run fatally with an
empty event trace (before any target is processed); a missing
pinned-versions file is not an error and behaves exactly as an empty pin
mapping; any other open or parse error is fatal, also before any target
is processed. -/
theorem C8_pin_validation (sets : List String) (cmd : command) (force : Bool)
    (ex : String → command → String → ExecRes) :
    (∀ pins : List (String × String),
      (∃ p ∈ pins, p.1 ≠ trimSpace p.1 ∨ p.2 ≠ trimSpace p.2) →
      ∃ m, runCli (.found pins) sets cmd force ex = .error ([], m)) ∧
    runCli .notFound sets cmd force ex = runCli (.found []) sets cmd force ex ∧
    (∀ m, runCli (.failure m) sets cmd force ex = .error ([], m)) := by
  refine ⟨?_, rfl, fun m => rfl⟩
  intro pins hbad
  obtain ⟨p, hp, hne⟩ := hbad
  have hsome : (pins.find? badPin).isSome := by
    rw [List.find?_isSome]
    refine ⟨p, hp, ?_⟩
    unfold badPin
    rcases hne with h | h <;> simp [h]
  obtain ⟨q, hq⟩ := Option.isSome_iff_exists.mp hsome
  refine ⟨"pinned version " ++ q.1 ++ " has space prefix and/or suffix in name or version", ?_⟩
  simp only [runCli, hq]

/-- Witness for C8: the pin file content of scenario E, `{" x": "1.0"}`,
makes the run fail fatally with an empty event trace. -/
theorem C8_pin_validation_witness :
    ∃ m, runCli (.found [(" x", "1.0")]) ["t"] command.install false
        (fun _ _ _ => ⟨"", true⟩) = .error ([], m) :=
  (C8_pin_validation ["t"] command.install false (fun _ _ _ => ⟨"", true⟩)).1
    [(" x", "1.0")] ⟨(" x", "1.0"), by simp, Or.inl (by decide)⟩

theorem verQueryRun_force_ok (kind : command)
    (ex : String → command → String → ExecRes) :
    ∀ (sets : List String) (m0 : String → Option String) (acc : List Ev),
      ∃ evs m, verQueryRun kind true ex sets m0 acc = .ok (evs, m) ∧
        ∀ x, m x = if x ∈ sets then some (trimSpace (ex x kind "").out) else m0 x := by
  intro sets
  induction sets with
  | nil =>
    intro m0 acc
    exact ⟨acc, m0, rfl, fun x => by simp⟩
  | cons t rest ih =>
    intro m0 acc
    by_cases hok : (ex t kind "").ok
    · obtain ⟨evs, m, hrun, hm⟩ := ih
        (fun x => if x = t then some (trimSpace (ex t kind "").out) else m0 x)
        (acc ++ [Ev.exec t kind ""])
      refine ⟨evs, m, ?_, ?_⟩
      · rw [verQueryRun, if_pos hok]
        exact hrun
      · intro x
        rw [hm x]
        by_cases hxr : x ∈ rest
        · simp [hxr]
        · by_cases hxt : x = t <;> simp [hxr, hxt]
    · obtain ⟨evs, m, hrun, hm⟩ := ih
        (fun x => if x = t then some (trimSpace (ex t kind "").out) else m0 x)
        (acc ++ [Ev.exec t kind ""] ++ [Ev.warn t])
      refine ⟨evs, m, ?_, ?_⟩
      · rw [verQueryRun, if_neg hok, if_pos rfl]
        exact hrun
      · intro x
        rw [hm x]
        by_cases hxr : x ∈ rest
        · simp [hxr]
        · by_cases hxt : x = t <;> simp [hxr, hxt]

/-- Claim C10: in a standalone `ver` or `checklatest` run with the force
flag set, the run completes and the resulting version map has an entry
for every enumerated target — including targets whose command failed —
equal to the trimmed captured output of that target's run (possibly the
empty string). -/
theorem C10_forced_version_map (ex : String → command → String → ExecRes)
    (sets : List String) :
    (∃ evs m, verQueryRun command.ver true ex sets (fun _ => none) [] = .ok (evs, m) ∧
      ∀ t ∈ sets, m t = some (trimSpace (ex t command.ver "").out)) ∧
    (∃ evs m, verQueryRun command.checklatest true ex sets (fun _ => none) [] = .ok (evs, m) ∧
      ∀ t ∈ sets, m t = some (trimSpace (ex t command.checklatest "").out)) := by
  constructor
  · obtain ⟨evs, m, hrun, hm⟩ := verQueryRun_force_ok command.ver ex sets (fun _ => none) []
    exact ⟨evs, m, hrun, fun t ht => by rw [hm t, if_pos ht]⟩
  · obtain ⟨evs, m, hrun, hm⟩ :=
      verQueryRun_force_ok command.checklatest ex sets (fun _ => none) []
    exact ⟨evs, m, hrun, fun t ht => by rw [hm t, if_pos ht]⟩

/-- Witness for C10 at a concrete input: two targets, one whose `ver`
fails with captured text " 1.0 " (entry is the trimmed "1.0"), one whose
`ver` fails with empty captured text (entry is the empty string). -/
theorem C10_forced_version_map_witness :
    ∃ evs m, verQueryRun command.ver true
        (fun t _ _ => if t = "a" then ⟨" 1.0 ", false⟩ else ⟨"", false⟩)
        ["a", "b"] (fun _ => none) [] = .ok (evs, m) ∧
      ∀ t ∈ ["a", "b"], m t = some (trimSpace
        ((fun (t : String) (_ : command) (_ : String) =>
          if t = "a" then ExecRes.mk " 1.0 " false else ExecRes.mk "" false)
          t command.ver "").out) :=
  (C10_forced_version_map
    (fun t _ _ => if t = "a" then ⟨" 1.0 ", false⟩ else ⟨"", false⟩) ["a", "b"]).1

/-! ## Install loop lemmas -/

/-- Concatenation of per-target event lists over the enumeration order. -/
def tracesConcat (f : String → List Ev) : List String → List Ev
  | [] => []
  | t :: rest => f t ++ tracesConcat f rest

theorem mem_tracesConcat_of_mem {f : String → List Ev} {t : String} {ev : Ev} :
    ∀ {sets : List String}, t ∈ sets → ev ∈ f t → ev ∈ tracesConcat f sets := by
  intro sets
  induction sets with
  | nil => intro h; exact absurd h (List.not_mem_nil t)
  | cons s rest ih =>
    intro hmem hev
    rw [tracesConcat, List.mem_append]
    rcases List.mem_cons.mp hmem with h | h
    · exact Or.inl (h ▸ hev)
    · exact Or.inr (ih h hev)

theorem mem_tracesConcat {f : String → List Ev} {ev : Ev} :
    ∀ {sets : List String}, ev ∈ tracesConcat f sets → ∃ t ∈ sets, ev ∈ f t := by
  intro sets
  induction sets with
  | nil => intro h; exact absurd h (List.not_mem_nil ev)
  | cons s rest ih =>
    intro hev
    rcases List.mem_append.mp hev with h | h
    · exact ⟨s, List.mem_cons_self s rest, h⟩
    · obtain ⟨t, ht, htv⟩ := ih h
      exact ⟨t, List.mem_cons_of_mem s ht, htv⟩

theorem installStepTrace_of_ver_ok {pins : List (String × String)}
    {ex : String → command → String → ExecRes} {t : String} (force : Bool)
    (h : (ex t command.ver "").ok = true) :
    installStepTrace force pins ex t = [Ev.exec t command.ver "", Ev.skipInstalled t] := by
  unfold installStepTrace installStep traceOf
  simp [h]

theorem installStepTrace_of_ver_fail {pins : List (String × String)}
    {ex : String → command → String → ExecRes} {t : String} (force : Bool)
    (h : (ex t command.ver "").ok = false) :
    installStepTrace force pins ex t =
      [Ev.exec t command.ver "", Ev.exec t command.checklatest "",
        Ev.exec t command.install (installVersionArg pins ex t)] ++
      (if (ex t command.install (installVersionArg pins ex t)).ok = false ∧ force = true
       then [Ev.warn t] else []) := by
  unfold installStepTrace installStep traceOf
  by_cases hi : (ex t command.install (installVersionArg pins ex t)).ok <;>
    cases force <;> simp [h, hi]

theorem installStep_mem_shape {force : Bool} {pins : List (String × String)}
    {ex : String → command → String → ExecRes} {t : String} {ev : Ev}
    (h : ev ∈ installStepTrace force pins ex t) :
    ev = Ev.exec t command.ver "" ∨ ev = Ev.skipInstalled t ∨
    ev = Ev.exec t command.checklatest "" ∨
    ev = Ev.exec t command.install (installVersionArg pins ex t) ∨ ev = Ev.warn t := by
  by_cases hv : (ex t command.ver "").ok
  · rw [installStepTrace_of_ver_ok force hv] at h
    rcases List.mem_cons.mp h with h1 | h1
    · exact Or.inl h1
    · rcases List.mem_cons.mp h1 with h2 | h2
      · exact Or.inr (Or.inl h2)
      · exact absurd h2 (List.not_mem_nil ev)
  · rw [installStepTrace_of_ver_fail force (Bool.not_eq_true _ ▸ hv)] at h
    rcases List.mem_append.mp h with h1 | h1
    · simp only [List.mem_cons, List.not_mem_nil, or_false] at h1
      rcases h1 with h2 | h2 | h2
      · exact Or.inl h2
      · exact Or.inr (Or.inr (Or.inl h2))
      · exact Or.inr (Or.inr (Or.inr (Or.inl h2)))
    · split at h1
      · simp only [List.mem_cons, List.not_mem_nil, or_false] at h1
        exact Or.inr (Or.inr (Or.inr (Or.inr h1)))
      · exact absurd h1 (List.not_mem_nil ev)

theorem installStep_force_ok (pins : List (String × String))
    (ex : String → command → String → ExecRes) (t : String) :
    installStep true pins ex t = .ok (installStepTrace true pins ex t) := by
  unfold installStepTrace installStep traceOf
  by_cases hv : (ex t command.ver "").ok
  · simp [hv]
  · by_cases hi : (ex t command.install (installVersionArg pins ex t)).ok <;> simp [hv, hi]

theorem installRun_ok_of_steps (force : Bool) (pins : List (String × String))
    (ex : String → command → String → ExecRes) :
    ∀ (sets : List String) (acc : List Ev),
      (∀ t ∈ sets, installStep force pins ex t = .ok (installStepTrace force pins ex t)) →
      installRun force pins ex sets acc =
        .ok (acc ++ tracesConcat (installStepTrace force pins ex) sets) := by
  intro sets
  induction sets with
  | nil => intro acc _; simp [installRun, tracesConcat]
  | cons s rest ih =>
    intro acc hsteps
    rw [installRun, hsteps s (List.mem_cons_self s rest)]
    show installRun force pins ex rest (acc ++ installStepTrace force pins ex s) = _
    rw [ih (acc ++ installStepTrace force pins ex s)
      (fun t ht => hsteps t (List.mem_cons_of_mem s ht))]
    rw [tracesConcat, List.append_assoc]

theorem installRun_ok_inv (force : Bool) (pins : List (String × String))
    (ex : String → command → String → ExecRes) :
    ∀ (sets : List String) (acc evs : List Ev),
      installRun force pins ex sets acc = .ok evs →
      (∀ t ∈ sets, installStep force pins ex t = .ok (installStepTrace force pins ex t)) ∧
      evs = acc ++ tracesConcat (installStepTrace force pins ex) sets := by
  intro sets
  induction sets with
  | nil =>
    intro acc evs h
    rw [installRun] at h
    refine ⟨fun t ht => absurd ht (List.not_mem_nil t), ?_⟩
    cases h
    simp [tracesConcat]
  | cons s rest ih =>
    intro acc evs h
    rw [installRun] at h
    cases hs : installStep force pins ex s with
    | error e =>
      rw [hs] at h
      cases e
      exact absurd h (by simp)
    | ok e =>
      rw [hs] at h
      obtain ⟨hsteps, hevs⟩ := ih (acc ++ e) evs h
      have htr : installStepTrace force pins ex s = e := by
        unfold installStepTrace
        rw [hs]
        rfl
      refine ⟨?_, ?_⟩
      · intro t ht
        rcases List.mem_cons.mp ht with h1 | h1
        · rw [h1, hs, htr]
        · exact hsteps t h1
      · rw [hevs, tracesConcat, htr, List.append_assoc]

theorem installStep_fail_error (pins : List (String × String))
    (ex : String → command → String → ExecRes) (t : String)
    (hv : (ex t command.ver "").ok = false)
    (hi : (ex t command.install (installVersionArg pins ex t)).ok = false) :
    installStep false pins ex t =
      .error ([Ev.exec t command.ver "", Ev.exec t command.checklatest "",
        Ev.exec t command.install (installVersionArg pins ex t)], "install " ++ t) := by
  unfold installStep
  simp [hv, hi]

theorem installRun_error_of_step_error (force : Bool) (pins : List (String × String))
    (ex : String → command → String → ExecRes) {t : String} :
    ∀ (sets : List String) (acc : List Ev), t ∈ sets →
      (∃ e, installStep force pins ex t = .error e) →
      ∃ e, installRun force pins ex sets acc = .error e := by
  intro sets
  induction sets with
  | nil => intro acc h; exact absurd h (List.not_mem_nil t)
  | cons s rest ih =>
    intro acc hmem herr
    rw [installRun]
    cases hs : installStep force pins ex s with
    | error e =>
      obtain ⟨e1, e2⟩ := e
      exact ⟨(acc ++ e1, e2), rfl⟩
    | ok e =>
      rcases List.mem_cons.mp hmem with h1 | h1
      · obtain ⟨e2, he2⟩ := herr
        rw [h1, hs] at he2
        exact absurd he2 (by simp)
      · exact ih (acc ++ e) h1 herr

/-- Counterexample to claim C4 as stated: target `"x"` has the pin entry
`("x", "1.0")`; its `ver` fails and its `checklatest` succeeds with
trimmed output `"2.0"`, yet `install` is invoked with the pinned `"1.0"`,
not the fetched latest version as the claim requires: the code passes
`cmp.Or(pinnedVersions[name], fetched)` to `install`. -/
theorem C4_install_flow_counterexample :
    ((fun (t : String) (k : command) (_ : String) =>
        match k with
        | command.ver => ExecRes.mk "" false
        | command.checklatest => ExecRes.mk "2.0\n" true
        | _ => ExecRes.mk "" true) "x" command.checklatest "").ok = true ∧
    trimSpace ((fun (t : String) (k : command) (_ : String) =>
        match k with
        | command.ver => ExecRes.mk "" false
        | command.checklatest => ExecRes.mk "2.0\n" true
        | _ => ExecRes.mk "" true) "x" command.checklatest "").out = "2.0" ∧
    Ev.exec "x" command.install "1.0" ∈ traceOf (installRun false [("x", "1.0")]
      (fun (t : String) (k : command) (_ : String) =>
        match k with
        | command.ver => ExecRes.mk "" false
        | command.checklatest => ExecRes.mk "2.0\n" true
        | _ => ExecRes.mk "" true) ["x"] []) ∧
    ∀ v, Ev.exec "x" command.install v ∈ traceOf (installRun false [("x", "1.0")]
      (fun (t : String) (k : command) (_ : String) =>
        match k with
        | command.ver => ExecRes.mk "" false
        | command.checklatest => ExecRes.mk "2.0\n" true
        | _ => ExecRes.mk "" true) ["x"] []) → v = "1.0" := by
  refine ⟨rfl, by decide, by decide, ?_⟩
  intro v hv
  have : traceOf (installRun false [("x", "1.0")]
      (fun (t : String) (k : command) (_ : String) =>
        match k with
        | command.ver => ExecRes.mk "" false
        | command.checklatest => ExecRes.mk "2.0\n" true
        | _ => ExecRes.mk "" true) ["x"] []) =
      [Ev.exec "x" command.ver "", Ev.exec "x" command.checklatest "",
        Ev.exec "x" command.install "1.0"] := by decide
  rw [this] at hv
  simp only [List.mem_cons, List.not_mem_nil, or_false, Ev.exec.injEq] at hv
  rcases hv with ⟨_, hk, _⟩ | ⟨_, hk, _⟩ | ⟨_, _, hvv⟩
  · exact absurd hk (by decide)
  · exact absurd hk (by decide)
  · exact hvv

/-- Claim C4 (amended): for every target during an install run: if `ver`
succeeds the target is skipped as already installed and `install` is not
invoked for it; if `ver` fails, `install` is invoked with the pinned
version when a non-empty pin entry exists for the target, and otherwise
with the fetched (trimmed) latest version — the empty string when
`checklatest` failed (the version argument is
`cmp.Or(pin, fetchedOrEmpty)`, i.e. `installVersionArg`); with the force
flag set the whole run completes, printing a warning for each failed
install and continuing; without it an install failure is fatal. -/
theorem C4_install_flow (force : Bool) (pins : List (String × String))
    (ex : String → command → String → ExecRes) (sets : List String) :
    (∀ evs, installRun force pins ex sets [] = .ok evs → ∀ t ∈ sets,
      ((ex t command.ver "").ok = true →
        Ev.skipInstalled t ∈ evs ∧ ∀ v, Ev.exec t command.install v ∉ evs) ∧
      ((ex t command.ver "").ok = false →
        Ev.exec t command.install (installVersionArg pins ex t) ∈ evs)) ∧
    (force = true → ∃ evs, installRun force pins ex sets [] = .ok evs) ∧
    (∀ evs, force = true → installRun force pins ex sets [] = .ok evs → ∀ t ∈ sets,
      (ex t command.ver "").ok = false →
      (ex t command.install (installVersionArg pins ex t)).ok = false →
      Ev.warn t ∈ evs) ∧
    (force = false → ∀ t ∈ sets,
      (ex t command.ver "").ok = false →
      (ex t command.install (installVersionArg pins ex t)).ok = false →
      ∃ e, installRun force pins ex sets [] = .error e) := by
  refine ⟨?_, ?_, ?_, ?_⟩
  · intro evs hok t ht
    obtain ⟨_, hevs⟩ := installRun_ok_inv force pins ex sets [] evs hok
    rw [List.nil_append] at hevs
    subst hevs
    refine ⟨?_, ?_⟩
    · intro hv
      constructor
      · apply mem_tracesConcat_of_mem ht
        rw [installStepTrace_of_ver_ok force hv]
        simp
      · intro v hmem
        obtain ⟨t2, _, hev2⟩ := mem_tracesConcat hmem
        rcases installStep_mem_shape hev2 with h | h | h | h | h
        · simp only [Ev.exec.injEq] at h
          exact absurd h.2.1 (by decide)
        · exact Ev.noConfusion h
        · simp only [Ev.exec.injEq] at h
          exact absurd h.2.1 (by decide)
        · simp only [Ev.exec.injEq] at h
          obtain ⟨ht2, -, -⟩ := h
          rw [installStepTrace_of_ver_ok force (ht2 ▸ hv)] at hev2
          rcases List.mem_cons.mp hev2 with h2 | h2
          · simp only [Ev.exec.injEq] at h2
            exact absurd h2.2.1 (by decide)
          · rcases List.mem_cons.mp h2 with h3 | h3
            · exact Ev.noConfusion h3
            · exact absurd h3 (List.not_mem_nil _)
        · exact Ev.noConfusion h
    · intro hv
      apply mem_tracesConcat_of_mem ht
      rw [installStepTrace_of_ver_fail force hv]
      simp
  · intro hf
    subst hf
    exact ⟨_, installRun_ok_of_steps true pins ex sets []
      (fun t _ => installStep_force_ok pins ex t)⟩
  · intro evs hf hok t ht hv hi
    subst hf
    obtain ⟨_, hevs⟩ := installRun_ok_inv true pins ex sets [] evs hok
    rw [List.nil_append] at hevs
    subst hevs
    apply mem_tracesConcat_of_mem ht
    rw [installStepTrace_of_ver_fail true hv]
    simp [hi]
  · intro hf t ht hv hi
    subst hf
    exact installRun_error_of_step_error false pins ex sets [] ht
      ⟨_, installStep_fail_error pins ex t hv hi⟩

/-- Witness for C4 (amended) on a concrete three-target forced run:
target "a" is already installed (skipped, no install invocation), target
"b" has the pin "9" and a failing install (install invoked with the pin,
warning printed, run continues), target "c" has failing `ver` and
`checklatest` and no pin (install invoked with the empty version). -/
theorem C4_install_flow_witness :
    (Ev.skipInstalled "a" ∈
        ([Ev.exec "a" command.ver "", Ev.skipInstalled "a",
          Ev.exec "b" command.ver "", Ev.exec "b" command.checklatest "",
          Ev.exec "b" command.install "9", Ev.warn "b",
          Ev.exec "c" command.ver "", Ev.exec "c" command.checklatest "",
          Ev.exec "c" command.install ""] : List Ev) ∧
      ∀ v, Ev.exec "a" command.install v ∉
        ([Ev.exec "a" command.ver "", Ev.skipInstalled "a",
          Ev.exec "b" command.ver "", Ev.exec "b" command.checklatest "",
          Ev.exec "b" command.install "9", Ev.warn "b",
          Ev.exec "c" command.ver "", Ev.exec "c" command.checklatest "",
          Ev.exec "c" command.install ""] : List Ev)) ∧
    Ev.exec "b" command.install "9" ∈
      ([Ev.exec "a" command.ver "", Ev.skipInstalled "a",
        Ev.exec "b" command.ver "", Ev.exec "b" command.checklatest "",
        Ev.exec "b" command.install "9", Ev.warn "b",
        Ev.exec "c" command.ver "", Ev.exec "c" command.checklatest "",
        Ev.exec "c" command.install ""] : List Ev) ∧
    Ev.warn "b" ∈
      ([Ev.exec "a" command.ver "", Ev.skipInstalled "a",
        Ev.exec "b" command.ver "", Ev.exec "b" command.checklatest "",
        Ev.exec "b" command.install "9", Ev.warn "b",
        Ev.exec "c" command.ver "", Ev.exec "c" command.checklatest "",
        Ev.exec "c" command.install ""] : List Ev) := by
  have h := C4_install_flow true [("b", "9")]
    (fun t k _ =>
      if t = "a" then ExecRes.mk "1.0\n" true
      else if t = "b" then
        match k with
        | command.ver => ExecRes.mk "" false
        | command.checklatest => ExecRes.mk "2.0\n" true
        | command.install => ExecRes.mk "" false
        | command.update => ExecRes.mk "" true
      else
        match k with
        | command.ver => ExecRes.mk "" false
        | command.checklatest => ExecRes.mk "" false
        | _ => ExecRes.mk "" true)
    ["a", "b", "c"]
  have hok : installRun true [("b", "9")]
      (fun t k _ =>
        if t = "a" then ExecRes.mk "1.0\n" true
        else if t = "b" then
          match k with
          | command.ver => ExecRes.mk "" false
          | command.checklatest => ExecRes.mk "2.0\n" true
          | command.install => ExecRes.mk "" false
          | command.update => ExecRes.mk "" true
        else
          match k with
          | command.ver => ExecRes.mk "" false
          | command.checklatest => ExecRes.mk "" false
          | _ => ExecRes.mk "" true)
      ["a", "b", "c"] [] =
      .ok [Ev.exec "a" command.ver "", Ev.skipInstalled "a",
        Ev.exec "b" command.ver "", Ev.exec "b" command.checklatest "",
        Ev.exec "b" command.install "9", Ev.warn "b",
        Ev.exec "c" command.ver "", Ev.exec "c" command.checklatest "",
        Ev.exec "c" command.install ""] := rfl
  refine ⟨(h.1 _ hok "a" (by simp)).1 rfl, ?_, ?_⟩
  · exact (h.1 _ hok "b" (by simp)).2 rfl
  · exact h.2.2.1 _ rfl hok "b" (by simp) rfl rfl

/-! ## Update loop lemmas -/

/-- The update queue computed by the planning loop, expressed over the
canonical post-gathering version maps (trimmed `ver`/`checklatest`
outputs). -/
def updatesQueue (pins : List (String × String))
    (ex : String → command → String → ExecRes) (sets : List String) :
    List (String × String) :=
  (planLoop pins (fun s => trimSpace (ex s command.ver "").out)
    (fun s => trimSpace (ex s command.checklatest "").out) sets).2

theorem gatherLoop_ok (ex : String → command → String → ExecRes) :
    ∀ (sets : List String) (cur0 lat0 : String → String) (acc : List Ev),
      (∀ t ∈ sets, (ex t command.ver "").ok = true ∧
        (ex t command.checklatest "").ok = true) →
      ∃ acc2 cur lat, gatherLoop ex sets cur0 lat0 acc = .ok (acc2, cur, lat) ∧
        (∀ x, cur x = if x ∈ sets then trimSpace (ex x command.ver "").out else cur0 x) ∧
        (∀ x, lat x = if x ∈ sets then trimSpace (ex x command.checklatest "").out else lat0 x) ∧
        (∀ ev ∈ acc2, ev ∈ acc ∨ ∃ t ∈ sets,
          ev = Ev.exec t command.ver "" ∨ ev = Ev.exec t command.checklatest "") := by
  intro sets
  induction sets with
  | nil =>
    intro cur0 lat0 acc _
    exact ⟨acc, cur0, lat0, rfl, fun x => by simp, fun x => by simp,
      fun ev hev => Or.inl hev⟩
  | cons s rest ih =>
    intro cur0 lat0 acc hall
    have hs := hall s (List.mem_cons_self s rest)
    obtain ⟨acc2, cur, lat, hrun, hcur, hlat, hacc⟩ := ih
      (fun x => if x = s then trimSpace (ex s command.ver "").out else cur0 x)
      (fun x => if x = s then trimSpace (ex s command.checklatest "").out else lat0 x)
      (acc ++ [Ev.exec s command.ver ""] ++ [Ev.exec s command.checklatest ""])
      (fun t ht => hall t (List.mem_cons_of_mem s ht))
    refine ⟨acc2, cur, lat, ?_, ?_, ?_, ?_⟩
    · rw [gatherLoop, if_pos hs.1, if_pos hs.2]
      exact hrun
    · intro x
      rw [hcur x]
      by_cases hxr : x ∈ rest
      · simp [hxr]
      · by_cases hxs : x = s <;> simp [hxr, hxs]
    · intro x
      rw [hlat x]
      by_cases hxr : x ∈ rest
      · simp [hxr]
      · by_cases hxs : x = s <;> simp [hxr, hxs]
    · intro ev hev
      rcases hacc ev hev with h | ⟨t, ht, hsh⟩
      · rcases List.mem_append.mp h with h1 | h1
        · rcases List.mem_append.mp h1 with h2 | h2
          · exact Or.inl h2
          · refine Or.inr ⟨s, List.mem_cons_self s rest, Or.inl ?_⟩
            simpa using h2
        · refine Or.inr ⟨s, List.mem_cons_self s rest, Or.inr ?_⟩
          simpa using h1
      · exact Or.inr ⟨t, List.mem_cons_of_mem s ht, hsh⟩

theorem gatherLoop_error (ex : String → command → String → ExecRes) :
    ∀ (sets : List String) (cur0 lat0 : String → String) (acc : List Ev),
      (∃ t ∈ sets, (ex t command.ver "").ok = false ∨
        (ex t command.checklatest "").ok = false) →
      ∃ e, gatherLoop ex sets cur0 lat0 acc = .error e := by
  intro sets
  induction sets with
  | nil =>
    intro cur0 lat0 acc h
    obtain ⟨t, ht, -⟩ := h
    exact absurd ht (List.not_mem_nil t)
  | cons s rest ih =>
    intro cur0 lat0 acc h
    by_cases hv : (ex s command.ver "").ok
    · by_cases hc : (ex s command.checklatest "").ok
      · have hrest : ∃ t ∈ rest, (ex t command.ver "").ok = false ∨
            (ex t command.checklatest "").ok = false := by
          obtain ⟨t, ht, hfail⟩ := h
          rcases List.mem_cons.mp ht with h1 | h1
          · subst h1
            rcases hfail with h2 | h2
            · rw [hv] at h2; exact absurd h2 (by decide)
            · rw [hc] at h2; exact absurd h2 (by decide)
          · exact ⟨t, h1, hfail⟩
        obtain ⟨e, he⟩ := ih _ _ _ hrest
        refine ⟨e, ?_⟩
        rw [gatherLoop, if_pos hv, if_pos hc]
        exact he
      · refine ⟨(acc ++ [Ev.exec s command.ver ""] ++ [Ev.exec s command.checklatest ""],
          "checklatest " ++ s), ?_⟩
        rw [gatherLoop, if_pos hv, if_neg hc]
    · refine ⟨(acc ++ [Ev.exec s command.ver ""], "ver " ++ s), ?_⟩
      rw [gatherLoop, if_neg hv]

theorem planLoop_congr (pins : List (String × String)) :
    ∀ (sets : List String) (cur cur2 lat lat2 : String → String),
      (∀ t ∈ sets, cur t = cur2 t ∧ lat t = lat2 t) →
      planLoop pins cur lat sets = planLoop pins cur2 lat2 sets := by
  intro sets
  induction sets with
  | nil => intro cur cur2 lat lat2 _; rfl
  | cons s rest ih =>
    intro cur cur2 lat lat2 h
    have hs := h s (List.mem_cons_self s rest)
    rw [planLoop, planLoop, ih cur cur2 lat lat2
      (fun t ht => h t (List.mem_cons_of_mem s ht))]
    rw [show effectiveVersion pins lat s = effectiveVersion pins lat2 s by
      unfold effectiveVersion; rw [hs.2], hs.1]

theorem planLoop_plan_mem (pins : List (String × String)) (cur lat : String → String) :
    ∀ (sets : List String) (p : String × String),
      p ∈ (planLoop pins cur lat sets).2 →
      p.1 ∈ sets ∧ p.2 = effectiveVersion pins lat p.1 ∧ cur p.1 ≠ p.2 := by
  intro sets
  induction sets with
  | nil => intro p hp; exact absurd hp (List.not_mem_nil p)
  | cons s rest ih =>
    intro p hp
    rw [planLoop] at hp
    by_cases he : cur s = effectiveVersion pins lat s
    · rw [if_pos he] at hp
      obtain ⟨h1, h2, h3⟩ := ih p hp
      exact ⟨List.mem_cons_of_mem s h1, h2, h3⟩
    · rw [if_neg he] at hp
      rcases List.mem_cons.mp hp with h1 | h1
      · subst h1
        exact ⟨List.mem_cons_self s rest, rfl, he⟩
      · obtain ⟨h2, h3, h4⟩ := ih p h1
        exact ⟨List.mem_cons_of_mem s h2, h3, h4⟩

theorem planLoop_noUpdate_mem (pins : List (String × String)) (cur lat : String → String) :
    ∀ (sets : List String) (t : String), t ∈ sets →
      cur t = effectiveVersion pins lat t →
      Ev.noUpdate t ∈ (planLoop pins cur lat sets).1 := by
  intro sets
  induction sets with
  | nil => intro t ht; exact absurd ht (List.not_mem_nil t)
  | cons s rest ih =>
    intro t ht heq
    rw [planLoop]
    rcases List.mem_cons.mp ht with h1 | h1
    · subst h1
      rw [if_pos heq]
      exact List.mem_cons_self _ _
    · by_cases he : cur s = effectiveVersion pins lat s
      · rw [if_pos he]
        exact List.mem_cons_of_mem _ (ih t h1 heq)
      · rw [if_neg he]
        exact ih t h1 heq

theorem planLoop_events_shape (pins : List (String × String)) (cur lat : String → String) :
    ∀ (sets : List String) (ev : Ev), ev ∈ (planLoop pins cur lat sets).1 →
      ∃ t ∈ sets, ev = Ev.noUpdate t := by
  intro sets
  induction sets with
  | nil => intro ev hev; exact absurd hev (List.not_mem_nil ev)
  | cons s rest ih =>
    intro ev hev
    rw [planLoop] at hev
    by_cases he : cur s = effectiveVersion pins lat s
    · rw [if_pos he] at hev
      rcases List.mem_cons.mp hev with h1 | h1
      · exact ⟨s, List.mem_cons_self s rest, h1⟩
      · obtain ⟨t, ht, hsh⟩ := ih ev h1
        exact ⟨t, List.mem_cons_of_mem s ht, hsh⟩
    · rw [if_neg he] at hev
      obtain ⟨t, ht, hsh⟩ := ih ev hev
      exact ⟨t, List.mem_cons_of_mem s ht, hsh⟩

theorem execUpdatesLoop_acc_mem (ex : String → command → String → ExecRes) :
    ∀ (ups : List (String × String)) (acc : List Ev) (ev : Ev), ev ∈ acc →
      ev ∈ traceOf (execUpdatesLoop ex ups acc) := by
  intro ups
  induction ups with
  | nil => intro acc ev hev; exact hev
  | cons p rest ih =>
    intro acc ev hev
    obtain ⟨t, v⟩ := p
    rw [execUpdatesLoop]
    by_cases hok : (ex t command.update v).ok
    · rw [if_pos hok]
      exact ih _ ev (List.mem_append_left _ hev)
    · rw [if_neg hok]
      exact List.mem_append_left _ hev

theorem execUpdatesLoop_events_shape (ex : String → command → String → ExecRes) :
    ∀ (ups : List (String × String)) (acc : List Ev) (ev : Ev),
      ev ∈ traceOf (execUpdatesLoop ex ups acc) →
      ev ∈ acc ∨ ∃ p ∈ ups, ev = Ev.exec p.1 command.update p.2 := by
  intro ups
  induction ups with
  | nil => intro acc ev hev; exact Or.inl hev
  | cons p rest ih =>
    intro acc ev hev
    obtain ⟨t, v⟩ := p
    rw [execUpdatesLoop] at hev
    by_cases hok : (ex t command.update v).ok
    · rw [if_pos hok] at hev
      rcases ih _ ev hev with h | ⟨q, hq, hsh⟩
      · rcases List.mem_append.mp h with h1 | h1
        · exact Or.inl h1
        · refine Or.inr ⟨(t, v), List.mem_cons_self _ _, ?_⟩
          simpa using h1
      · exact Or.inr ⟨q, List.mem_cons_of_mem _ hq, hsh⟩
    · rw [if_neg hok] at hev
      rcases List.mem_append.mp hev with h1 | h1
      · exact Or.inl h1
      · refine Or.inr ⟨(t, v), List.mem_cons_self _ _, ?_⟩
        simpa using h1

theorem execUpdatesLoop_fail (ex : String → command → String → ExecRes)
    {t : String} {v : String} (hfail : (ex t command.update v).ok = false) :
    ∀ (u1 u2 : List (String × String)) (acc : List Ev),
      (∀ p ∈ u1, (ex p.1 command.update p.2).ok = true) →
      execUpdatesLoop ex (u1 ++ (t, v) :: u2) acc =
        .error (acc ++ u1.map (fun p => Ev.exec p.1 command.update p.2) ++
          [Ev.exec t command.update v], "updating " ++ t) := by
  intro u1
  induction u1 with
  | nil =>
    intro u2 acc _
    rw [List.nil_append, execUpdatesLoop, if_neg (by rw [hfail]; exact Bool.false_ne_true)]
    simp
  | cons q rest ih =>
    intro u2 acc hall
    obtain ⟨qt, qv⟩ := q
    have hq := hall (qt, qv) (List.mem_cons_self _ _)
    rw [List.cons_append, execUpdatesLoop, if_pos hq]
    rw [ih u2 _ (fun p hp => hall p (List.mem_cons_of_mem _ hp))]
    simp

theorem updateRun_eq_of_gather_ok {ex : String → command → String → ExecRes}
    {sets : List String} {acc2 : List Ev} {cur lat : String → String}
    (force : Bool) (pins : List (String × String))
    (h : gatherLoop ex sets (fun _ => "") (fun _ => "") [] = .ok (acc2, cur, lat)) :
    updateRun force pins ex sets =
      execUpdatesLoop ex (planLoop pins cur lat sets).2
        (acc2 ++ (planLoop pins cur lat sets).1) := by
  rw [updateRun, h]

/-- Claim C3: during an update run (with all version-gathering commands
succeeding, as otherwise the run aborts), every target whose trimmed
current version equals its effective target version is skipped with a
logged ": no update" line, and no `update` operation is ever executed for
that target. -/
theorem C3_update_skip (force : Bool) (pins : List (String × String))
    (ex : String → command → String → ExecRes) (sets : List String) (t : String)
    (hall : ∀ s ∈ sets, (ex s command.ver "").ok = true ∧
      (ex s command.checklatest "").ok = true)
    (ht : t ∈ sets)
    (heq : trimSpace (ex t command.ver "").out =
      effectiveVersion pins (fun s => trimSpace (ex s command.checklatest "").out) t) :
    Ev.noUpdate t ∈ traceOf (updateRun force pins ex sets) ∧
    ∀ v, Ev.exec t command.update v ∉ traceOf (updateRun force pins ex sets) := by
  obtain ⟨acc2, cur, lat, hrun, hcur, hlat, hacc⟩ :=
    gatherLoop_ok ex sets (fun _ => "") (fun _ => "") [] hall
  rw [updateRun_eq_of_gather_ok force pins hrun]
  have hcurt : cur t = trimSpace (ex t command.ver "").out := by
    rw [hcur t, if_pos ht]
  have heff : effectiveVersion pins lat t =
      effectiveVersion pins (fun s => trimSpace (ex s command.checklatest "").out) t := by
    unfold effectiveVersion
    rw [hlat t, if_pos ht]
  have hkey : cur t = effectiveVersion pins lat t := by
    rw [hcurt, heq, heff]
  constructor
  · apply execUpdatesLoop_acc_mem
    exact List.mem_append_right _ (planLoop_noUpdate_mem pins cur lat sets t ht hkey)
  · intro v hv
    rcases execUpdatesLoop_events_shape ex _ _ _ hv with h | ⟨p, hp, hsh⟩
    · rcases List.mem_append.mp h with h1 | h1
      · rcases hacc _ h1 with h2 | ⟨t2, _, hsh2⟩
        · exact absurd h2 (List.not_mem_nil _)
        · rcases hsh2 with h3 | h3 <;>
            (simp only [Ev.exec.injEq] at h3; exact absurd h3.2.1 (by decide))
      · obtain ⟨t2, -, hsh2⟩ := planLoop_events_shape pins cur lat sets _ h1
        exact Ev.noConfusion hsh2
    · obtain ⟨-, hp2, hp3⟩ := planLoop_plan_mem pins cur lat sets p hp
      simp only [Ev.exec.injEq] at hsh
      obtain ⟨hpt, -, -⟩ := hsh
      apply hp3
      rw [← hpt, hkey, hp2, ← hpt]

/-- Witness for C3 on a concrete run: target "a" reports current " 1.0\n"
(trimmed "1.0") and latest "1.0" with no pin, so its effective version
equals its current version: the run logs ": no update" for "a" and never
executes `update` for it (while "b" does get updated). -/
theorem C3_update_skip_witness :
    Ev.noUpdate "a" ∈ traceOf (updateRun false []
      (fun t k _ =>
        if t = "a" then
          match k with
          | command.ver => ExecRes.mk " 1.0\n" true
          | command.checklatest => ExecRes.mk "1.0" true
          | _ => ExecRes.mk "" true
        else
          match k with
          | command.ver => ExecRes.mk "1" true
          | command.checklatest => ExecRes.mk "2" true
          | _ => ExecRes.mk "" true) ["a", "b"]) ∧
    ∀ v, Ev.exec "a" command.update v ∉ traceOf (updateRun false []
      (fun t k _ =>
        if t = "a" then
          match k with
          | command.ver => ExecRes.mk " 1.0\n" true
          | command.checklatest => ExecRes.mk "1.0" true
          | _ => ExecRes.mk "" true
        else
          match k with
          | command.ver => ExecRes.mk "1" true
          | command.checklatest => ExecRes.mk "2" true
          | _ => ExecRes.mk "" true) ["a", "b"]) :=
  C3_update_skip false []
    (fun t k _ =>
      if t = "a" then
        match k with
        | command.ver => ExecRes.mk " 1.0\n" true
        | command.checklatest => ExecRes.mk "1.0" true
        | _ => ExecRes.mk "" true
      else
        match k with
        | command.ver => ExecRes.mk "1" true
        | command.checklatest => ExecRes.mk "2" true
        | _ => ExecRes.mk "" true) ["a", "b"] "a"
    (by decide) (by decide) (by decide)

/-- Claim C5: during an update run every command failure is fatal
regardless of the force flag (which the update branch never reads): a
failing `ver` or `checklatest` for any target in the gathering phase
aborts the run, and a failing `update` in the execution phase aborts the
run while the events of the updates already applied to earlier queued
targets are preserved in the aborted run's trace (nothing is rolled
back). -/
theorem C5_update_failures_fatal (force : Bool) (pins : List (String × String))
    (ex : String → command → String → ExecRes) (sets : List String) :
    ((∃ t ∈ sets, (ex t command.ver "").ok = false ∨
        (ex t command.checklatest "").ok = false) →
      ∃ e, updateRun force pins ex sets = .error e) ∧
    (∀ (u1 u2 : List (String × String)) (t v : String),
      (∀ s ∈ sets, (ex s command.ver "").ok = true ∧
        (ex s command.checklatest "").ok = true) →
      updatesQueue pins ex sets = u1 ++ (t, v) :: u2 →
      (∀ p ∈ u1, (ex p.1 command.update p.2).ok = true) →
      (ex t command.update v).ok = false →
      ∃ evs msg, updateRun force pins ex sets = .error (evs, msg) ∧
        (∀ p ∈ u1, Ev.exec p.1 command.update p.2 ∈ evs) ∧
        Ev.exec t command.update v ∈ evs) ∧
    (∀ force2, updateRun force pins ex sets = updateRun force2 pins ex sets) := by
  refine ⟨?_, ?_, fun force2 => rfl⟩
  · intro hfail
    obtain ⟨e, he⟩ := gatherLoop_error ex sets (fun _ => "") (fun _ => "") [] hfail
    exact ⟨e, by rw [updateRun, he]⟩
  · intro u1 u2 t v hall hq hu1 hfail
    obtain ⟨acc2, cur, lat, hrun, hcur, hlat, -⟩ :=
      gatherLoop_ok ex sets (fun _ => "") (fun _ => "") [] hall
    rw [updateRun_eq_of_gather_ok force pins hrun]
    rw [updatesQueue] at hq
    have hplan : planLoop pins cur lat sets =
        planLoop pins (fun s => trimSpace (ex s command.ver "").out)
          (fun s => trimSpace (ex s command.checklatest "").out) sets :=
      planLoop_congr pins sets cur _ lat _
        (fun s hs => ⟨by rw [hcur s, if_pos hs], by rw [hlat s, if_pos hs]⟩)
    have hups : (planLoop pins cur lat sets).2 = u1 ++ (t, v) :: u2 := by
      rw [hplan]
      exact hq
    rw [hups, execUpdatesLoop_fail ex hfail u1 u2 _ hu1]
    refine ⟨_, _, rfl, ?_, ?_⟩
    · intro p hp
      exact List.mem_append_left _
        (List.mem_append_right _ (List.mem_map_of_mem _ hp))
    · exact List.mem_append_right _ (by simp)

/-- Witness for C5: a run where target "a"'s `ver` fails aborts; and a
run where both targets gather fine, "a"'s queued update succeeds and
"b"'s queued update fails, aborts while "a"'s applied update remains in
the trace. -/
theorem C5_update_failures_fatal_witness :
    (∃ e, updateRun false []
      (fun _ k _ =>
        match k with
        | command.ver => ExecRes.mk "" false
        | _ => ExecRes.mk "" true) ["a"] = .error e) ∧
    (∃ evs msg, updateRun false []
      (fun t k _ =>
        if t = "a" then
          match k with
          | command.ver => ExecRes.mk "1" true
          | command.checklatest => ExecRes.mk "2" true
          | _ => ExecRes.mk "" true
        else
          match k with
          | command.ver => ExecRes.mk "1" true
          | command.checklatest => ExecRes.mk "3" true
          | command.update => ExecRes.mk "" false
          | command.install => ExecRes.mk "" true) ["a", "b"] = .error (evs, msg) ∧
      (∀ p ∈ ([("a", "2")] : List (String × String)),
        Ev.exec p.1 command.update p.2 ∈ evs) ∧
      Ev.exec "b" command.update "3" ∈ evs) := by
  constructor
  · exact (C5_update_failures_fatal false []
      (fun _ k _ =>
        match k with
        | command.ver => ExecRes.mk "" false
        | _ => ExecRes.mk "" true) ["a"]).1 ⟨"a", by simp, Or.inl rfl⟩
  · exact (C5_update_failures_fatal false []
      (fun t k _ =>
        if t = "a" then
          match k with
          | command.ver => ExecRes.mk "1" true
          | command.checklatest => ExecRes.mk "2" true
          | _ => ExecRes.mk "" true
        else
          match k with
          | command.ver => ExecRes.mk "1" true
          | command.checklatest => ExecRes.mk "3" true
          | command.update => ExecRes.mk "" false
          | command.install => ExecRes.mk "" true) ["a", "b"]).2.1
      [("a", "2")] [] "b" "3" (by decide) rfl (by decide) rfl

/-! ## Sorting and de-duplication lemmas (all-targets enumeration) -/

/-- Non-strict name order on named command sets. -/
def nameLe (a b : namedCommandSet) : Prop := a.Name ≤ b.Name

/-- Strict name order on named command sets. -/
def nameLt (a b : namedCommandSet) : Prop := a.Name < b.Name

/-- What one comparator step of the sort guarantees about two adjacent
elements: names are nondecreasing, and on equal names zero-ness
propagates rightwards (a zero entry is never immediately left of a
non-zero entry of the same name). -/
def sortStep (a b : namedCommandSet) : Prop :=
  a.Name ≤ b.Name ∧ (a.Name = b.Name → isZeroSet a.Set = true → isZeroSet b.Set = true)

instance : IsTrans namedCommandSet sortStep :=
  ⟨fun a b c hab hbc => by
    refine ⟨le_trans hab.1 hbc.1, fun hac hza => ?_⟩
    have hba : b.Name = a.Name := le_antisymm (hac ▸ hbc.1) hab.1
    exact hbc.2 (hba.symm ▸ hac) (hab.2 hba.symm hza)⟩

theorem sortStep_of_cmpSets {a b : namedCommandSet} (h : 0 ≤ cmpSets b a) :
    sortStep a b := by
  unfold cmpSets at h
  split_ifs at h with h1 h2 h3 h4
  · exact absurd h (by decide)
  · exact ⟨le_of_lt h2, fun heq _ => absurd h2 (by rw [heq]; exact lt_irrefl _)⟩
  · exact ⟨not_lt.mp h1, fun _ _ => h3⟩
  · exact absurd h (by decide)
  · exact ⟨not_lt.mp h1, fun _ hza => absurd hza h4⟩

theorem compactAux_eq_dropWhile (eq : namedCommandSet → namedCommandSet → Bool)
    (x : namedCommandSet) :
    ∀ l : List namedCommandSet,
      compactAux eq x l = compactFunc eq (l.dropWhile (fun y => eq x y)) := by
  intro l
  induction l generalizing x with
  | nil => rfl
  | cons y ys ih =>
    rw [compactAux, List.dropWhile_cons]
    by_cases hxy : eq x y
    · rw [if_pos hxy, if_pos hxy, ih]
    · rw [if_neg hxy, if_neg hxy, compactFunc]

theorem mem_of_mem_compactAux (eq : namedCommandSet → namedCommandSet → Bool) :
    ∀ (l : List namedCommandSet) (x a : namedCommandSet),
      a ∈ compactAux eq x l → a ∈ l := by
  intro l
  induction l with
  | nil => intro x a ha; exact absurd ha (List.not_mem_nil a)
  | cons y ys ih =>
    intro x a ha
    rw [compactAux] at ha
    by_cases hxy : eq x y
    · rw [if_pos hxy] at ha
      exact List.mem_cons_of_mem y (ih x a ha)
    · rw [if_neg hxy] at ha
      rcases List.mem_cons.mp ha with h1 | h1
      · exact h1 ▸ List.mem_cons_self y ys
      · exact List.mem_cons_of_mem y (ih y a h1)

theorem mem_of_mem_compactFunc (eq : namedCommandSet → namedCommandSet → Bool)
    {l : List namedCommandSet} {a : namedCommandSet}
    (ha : a ∈ compactFunc eq l) : a ∈ l := by
  cases l with
  | nil => exact absurd ha (List.not_mem_nil a)
  | cons x ys =>
    rw [compactFunc] at ha
    rcases List.mem_cons.mp ha with h1 | h1
    · exact h1 ▸ List.mem_cons_self x ys
    · exact List.mem_cons_of_mem x (mem_of_mem_compactAux eq ys x a h1)

theorem mem_dropWhile_of_neg (p : namedCommandSet → Bool) :
    ∀ (l : List namedCommandSet) (a : namedCommandSet),
      a ∈ l → p a = false → a ∈ l.dropWhile p := by
  intro l
  induction l with
  | nil => intro a ha; exact absurd ha (List.not_mem_nil a)
  | cons y ys ih =>
    intro a ha hpa
    rw [List.dropWhile_cons]
    by_cases hpy : p y
    · rw [if_pos hpy]
      rcases List.mem_cons.mp ha with h1 | h1
      · rw [h1] at hpa
        rw [hpa] at hpy
        exact absurd hpy (by decide)
      · exact ih a h1 hpa
    · rw [if_neg hpy]
      exact ha

theorem dropWhile_name_lt (x : namedCommandSet) :
    ∀ l : List namedCommandSet, List.Pairwise nameLe (x :: l) →
      ∀ z ∈ l.dropWhile (fun y => eqName x y), x.Name < z.Name := by
  intro l
  induction l with
  | nil => intro _ z hz; exact absurd hz (List.not_mem_nil z)
  | cons y ys ih =>
    intro hp z hz
    obtain ⟨hx, hrest⟩ := List.pairwise_cons.mp hp
    obtain ⟨hy, hys⟩ := List.pairwise_cons.mp hrest
    rw [List.dropWhile_cons] at hz
    by_cases hxy : eqName x y
    · rw [if_pos hxy] at hz
      exact ih (List.pairwise_cons.mpr
        ⟨fun b hb => hx b (List.mem_cons_of_mem y hb), hys⟩) z hz
    · rw [if_neg hxy] at hz
      have hne : x.Name ≠ y.Name := by
        intro hcontra
        exact hxy (by unfold eqName; simp [hcontra])
      have hlt : x.Name < y.Name :=
        lt_of_le_of_ne (hx y (List.mem_cons_self y ys)) hne
      rcases List.mem_cons.mp hz with h1 | h1
      · exact h1 ▸ hlt
      · exact lt_of_lt_of_le hlt (hy z h1)

theorem compact_pairwise_nameLt :
    ∀ (n : Nat) (l : List namedCommandSet), l.length ≤ n →
      List.Pairwise nameLe l → List.Pairwise nameLt (compactByName l) := by
  intro n
  induction n with
  | zero =>
    intro l hlen _
    rw [List.length_eq_zero.mp (Nat.le_zero.mp hlen)]
    exact List.Pairwise.nil
  | succ n ih =>
    intro l hlen hp
    cases l with
    | nil => exact List.Pairwise.nil
    | cons x ys =>
      have hstep : compactByName (x :: ys) =
          x :: compactByName (ys.dropWhile (fun y => eqName x y)) := by
        rw [compactByName, compactFunc, compactAux_eq_dropWhile]
        rfl
      rw [hstep]
      refine List.pairwise_cons.mpr ⟨?_, ?_⟩
      · intro z hz
        exact dropWhile_name_lt x ys hp z
          (mem_of_mem_compactFunc eqName hz)
      · apply ih
        · have h1 : (ys.dropWhile (fun y => eqName x y)).length ≤ ys.length :=
            (List.dropWhile_sublist _).length_le
          have h2 : ys.length ≤ n := by
            rw [List.length_cons] at hlen
            omega
          omega
        · exact ((List.pairwise_cons.mp hp).2).sublist (List.dropWhile_sublist _)

theorem compact_keeps :
    ∀ (n : Nat) (l : List namedCommandSet), l.length ≤ n →
      List.Pairwise sortStep l →
      ∀ a ∈ l, isZeroSet a.Set = false →
        (∀ c ∈ l, c.Name = a.Name → c = a ∨ isZeroSet c.Set = true) →
        a ∈ compactByName l := by
  intro n
  induction n with
  | zero =>
    intro l hlen _ a ha
    rw [List.length_eq_zero.mp (Nat.le_zero.mp hlen)] at ha
    exact absurd ha (List.not_mem_nil a)
  | succ n ih =>
    intro l hlen hp a ha hnz hsame
    cases l with
    | nil => exact absurd ha (List.not_mem_nil a)
    | cons x ys =>
      have hstep : compactByName (x :: ys) =
          x :: compactByName (ys.dropWhile (fun y => eqName x y)) := by
        rw [compactByName, compactFunc, compactAux_eq_dropWhile]
        rfl
      rw [hstep]
      rcases List.mem_cons.mp ha with hax | hay
      · exact hax ▸ List.mem_cons_self _ _
      · by_cases hname : x.Name = a.Name
        · rcases hsame x (List.mem_cons_self x ys) hname with hxa | hzx
          · exact hxa ▸ List.mem_cons_self _ _
          · have hstepxa : sortStep x a :=
              (List.pairwise_cons.mp hp).1 a hay
            have : isZeroSet a.Set = true := hstepxa.2 hname hzx
            rw [hnz] at this
            exact absurd this (by decide)
        · have hpa : eqName x a = false := by
            unfold eqName
            simp [hname]
          have hdrop : a ∈ ys.dropWhile (fun y => eqName x y) :=
            mem_dropWhile_of_neg _ ys a hay hpa
          apply List.mem_cons_of_mem
          apply ih (ys.dropWhile (fun y => eqName x y))
          · have h1 : (ys.dropWhile (fun y => eqName x y)).length ≤ ys.length :=
              (List.dropWhile_sublist _).length_le
            have h2 : ys.length ≤ n := by
              rw [List.length_cons] at hlen
              omega
            omega
          · exact ((List.pairwise_cons.mp hp).2).sublist (List.dropWhile_sublist _)
          · exact hdrop
          · exact hnz
          · intro c hc
            exact hsame c (List.mem_cons_of_mem x
              ((List.dropWhile_sublist _).subset hc))

theorem pairwise_nameLt_unique :
    ∀ m : List namedCommandSet, List.Pairwise nameLt m →
      ∀ a ∈ m, ∀ c ∈ m, a.Name = c.Name → a = c := by
  intro m
  induction m with
  | nil => intro _ a ha; exact absurd ha (List.not_mem_nil a)
  | cons x ys ih =>
    intro hp a ha c hc heq
    obtain ⟨hx, hys⟩ := List.pairwise_cons.mp hp
    rcases List.mem_cons.mp ha with h1 | h1 <;> rcases List.mem_cons.mp hc with h2 | h2
    · rw [h1, h2]
    · exfalso
      have hlt : a.Name < c.Name := h1 ▸ hx c h2
      rw [heq] at hlt
      exact lt_irrefl _ hlt
    · exfalso
      have hlt : c.Name < a.Name := h2 ▸ hx a h1
      rw [heq] at hlt
      exact lt_irrefl _ hlt
    · exact ih hys a h1 c h2 heq

/-- Claim C6: in all-targets mode, any list `out` that Go's
`slices.SortFunc` may produce from the enumerated entries `l` (a
permutation of `l` that is sorted under the comparator of lines 325-341)
compacts, under the name-equality `CompactFunc` of line 343, to a list
that is strictly ascending by name (hence has exactly one entry per
name); and every non-zero (file-defined) entry whose name-sharers in `l`
are all zero (bare-directory) entries survives the de-duplication as the
unique entry of its name. -/
theorem C6_enumeration (l out : List namedCommandSet)
    (hperm : out.Perm l) (hsorted : sortedByCmpSets out) :
    List.Pairwise nameLt (compactByName out) ∧
    (∀ a ∈ l, isZeroSet a.Set = false →
      (∀ c ∈ l, c.Name = a.Name → c = a ∨ isZeroSet c.Set = true) →
      a ∈ compactByName out ∧
      ∀ c ∈ compactByName out, c.Name = a.Name → c = a) := by
  have hchain : out.Chain' sortStep :=
    List.Chain'.imp (fun a b h => sortStep_of_cmpSets h) hsorted
  have hpw : List.Pairwise sortStep out := List.chain'_iff_pairwise.mp hchain
  have hpwLe : List.Pairwise nameLe out := hpw.imp (fun h => h.1)
  have hsortedNames : List.Pairwise nameLt (compactByName out) :=
    compact_pairwise_nameLt out.length out le_rfl hpwLe
  refine ⟨hsortedNames, fun a hal hnz hsame => ?_⟩
  have hao : a ∈ out := hperm.mem_iff.mpr hal
  have hsame2 : ∀ c ∈ out, c.Name = a.Name → c = a ∨ isZeroSet c.Set = true :=
    fun c hc => hsame c (hperm.subset hc)
  have hmem : a ∈ compactByName out :=
    compact_keeps out.length out le_rfl hpw a hao hnz hsame2
  refine ⟨hmem, fun c hc hcn => ?_⟩
  exact pairwise_nameLt_unique _ hsortedNames c hc a hmem hcn

/-- Witness for C6: the name "a" is defined both by a file entry with a
non-empty `ver` template and by a bare-directory (zero) entry; after the
sorted order `[file, dir]` is compacted, the file entry is the unique
surviving entry for "a". -/
theorem C6_enumeration_witness :
    List.Pairwise nameLt (compactByName
      [⟨"a", { Ver := some ["v"] }⟩, ⟨"a", {}⟩]) ∧
    (⟨"a", { Ver := some ["v"] }⟩ : namedCommandSet) ∈ compactByName
      [⟨"a", { Ver := some ["v"] }⟩, ⟨"a", {}⟩] ∧
    ∀ c ∈ compactByName [⟨"a", { Ver := some ["v"] }⟩, ⟨"a", {}⟩],
      c.Name = "a" → c = (⟨"a", { Ver := some ["v"] }⟩ : namedCommandSet) := by
  have hsorted : sortedByCmpSets [⟨"a", { Ver := some ["v"] }⟩, ⟨"a", {}⟩] := by
    unfold sortedByCmpSets
    refine (List.chain'_singleton _).cons ?_
    show (0 : Int) ≤ cmpSets ⟨"a", {}⟩ ⟨"a", { Ver := some ["v"] }⟩
    unfold cmpSets
    rw [if_neg (lt_irrefl _), if_neg (lt_irrefl _)]
    simp [isZeroSet]
  have h := C6_enumeration
    [⟨"a", {}⟩, ⟨"a", { Ver := some ["v"] }⟩]
    [⟨"a", { Ver := some ["v"] }⟩, ⟨"a", {}⟩]
    (by decide) hsorted
  obtain ⟨hmem, huniq⟩ := h.2 ⟨"a", { Ver := some ["v"] }⟩ (by decide) (by decide)
    (by decide)
  exact ⟨h.1, hmem, huniq⟩

end Pkgmgr
